import Mathlib

/-!
# A shallow embedding of `lsh.c`

The shell of `src/lsh.c` is embedded as pure functions over an explicit shell state.

Conventions of the embedding:

* a C string is a `List Char`;
* a pointer array (`tokens`, `redTokens`, `nameTokens`, `path`) is the list of the cells the
  program has stored; a word the program reads without having stored it (`*tokens` of an
  empty token array, `tokens[size]` in `builtInPath`, the cell of `path` after the last one
  stored) is whatever the heap holds there: the oracle `OS.zero` tells whether it reads as
  `NULL`, and a word that does not is no pointer of the program, so that using it is a
  fault;
* `malloc`, `realloc` and `strdup` succeed; `strcat` appends as long as the result fits the
  block that `strdup` returned, whose usable size the oracle `OS.usable` gives, and is a fault
  otherwise;
* the operating system is an oracle `OS` answering `access`, `execv`, `chdir`, `fork` and
  `freopen`;
* the stdio stream `stdout` is attached to file descriptor 1 until `fclose` closes it;
* every function returns a `Run`: how control left it, the state of the calling process, and
  the trace of the calls it made, in order;
* `fork` is seen from the calling process: the trace records what the child was created to
  do, and `runChild` gives the run of a child on its own copy of the state;
* `wait(NULL)` returns once a child has terminated.
-/

namespace Lsh

/-- A C string. -/
abbrev Str := List Char

/-- The global `error_message`. -/
def error_message : Str := "An error has occurred\n".toList

/-- The delimiters `" \t"` of the tokenizing loops. -/
def blanks : List Char := [' ', '\t']

/-- One call `strsep(&rem, delims)` on a non-null `rem`: the token up to the first delimiter
and the new value of `rem` (`none` is `NULL`: no delimiter was found). -/
def strsepScan (delims : List Char) : Str → Str × Option Str
  | [] => ([], none)
  | c :: cs =>
    if c ∈ delims then ([], some cs)
    else ((c :: (strsepScan delims cs).1), (strsepScan delims cs).2)

/-- The library call `strsep(&rem, delims)`: `none` is a `NULL` result. -/
def strsep (delims : List Char) : Option Str → Option (Str × Option Str)
  | none => none
  | some s => some (strsepScan delims s)

/-- The tokens handed out, in order, by `while ((token = strsep(&rem, delims)) != NULL)`
started on `rem = strdup(s)`. -/
def strsepAll (delims : List Char) : Str → List Str
  | [] => [[]]
  | c :: cs =>
    if c ∈ delims then [] :: strsepAll delims cs
    else
      match strsepAll delims cs with
      | [] => [[c]]
      | t :: ts => (c :: t) :: ts

/-- The cell the program has stored at index `i` of a pointer array; `none` when it has
stored none there. -/
def cell (a : List Str) (i : Nat) : Option Str := a.get? i

/-- A word of a pointer array: `NULL`, a pointer to a string of the program, or a value the
program never stored there and that is not `NULL`. -/
inductive Word
  | null
  | ptr (s : Str)
  | junk
  deriving DecidableEq

/-- The two arrays of which the program reads a word it has not stored. -/
inductive Block
  | tokens
  | path
  deriving DecidableEq

/-- Where file descriptor 1 of a process points. -/
inductive Dest
  | inherited
  | file (name : Str)
  | closed
  deriving DecidableEq

/-- What a child process was forked to do. -/
inductive Child
  | exec (executable : Str) (args : List Str) (out : Dest) (cwd : Str)
  | redirect (token : Str)
  | command (token : Str)
  deriving DecidableEq

/-- The calls a process makes that the claims speak about. -/
inductive Event
  | stderr (text : Str)
  | select (tokens : List Str)
  | access (executable : Str)
  | fork (child : Child) (created : Bool)
  | wait
  | freopen (name : Str) (opened : Bool)
  | fclose (name : Str)
  deriving DecidableEq

/-- How control leaves a function: it returns, the process ends in `exit(status)`, or the
process reaches undefined behaviour (`fclose(NULL)`, `strcmp` or `strdup` on a word that is
no string, `strcat` past the end of its block), where the embedding stops. -/
inductive Outcome
  | returned
  | exited (status : Nat)
  | fault
  deriving DecidableEq

/-- The state of a shell process: the cells stored in the global `path`, the working
directory, the destination of file descriptor 1 (which children inherit), whether the stdio
stream `stdout` is still attached to file descriptor 1, the file a redirection holds open,
the number of `fork` calls made so far and the number of children not yet waited for. -/
structure Shell where
  path : List Word
  cwd : Str
  out : Dest
  stdoutOpen : Bool
  target : Option Str
  forks : Nat
  children : Nat
  deriving DecidableEq

/-- The answers of the operating system and of the C library. `chdir cwd dir` is the new
working directory, or `none` when the change is refused; `fork n` tells whether the call
number `n` of the process creates a child; `execv p` whether the image of `p` replaces the
process; `usable n` is the number of bytes that can be written to a block allocated for `n`
bytes; `zero st b i` tells whether the word at index `i` of the array `b`, which the process
in state `st` has not stored, reads as `NULL`. -/
structure OS where
  access : Str → Bool
  chdir : Str → Str → Option Str
  fork : Nat → Bool
  freopen : Str → Bool
  execv : Str → Bool
  usable : Nat → Nat
  zero : Shell → Block → Nat → Bool

/-- The result of running a function of the shell. -/
structure Run where
  outcome : Outcome
  state : Shell
  trace : List Event
  deriving DecidableEq

/-- The statement `write(STDERR_FILENO, error_message, strlen(error_message))`, after which
the function returns. -/
def report (st : Shell) : Run := ⟨.returned, st, [.stderr error_message]⟩

/-- The state `main` hands to the line loops: the one cell `path[0] = "/bin"` is stored, and
no terminator after it. -/
def initialShell (cwd : Str) : Shell :=
  ⟨[.ptr "/bin".toList], cwd, .inherited, true, none, 0, 0⟩

/-- The word at index `i` of the token array whose stored cells are `tokens`. -/
def word (os : OS) (st : Shell) (tokens : List Str) (i : Nat) : Word :=
  match cell tokens i with
  | some s => .ptr s
  | none => if os.zero st .tokens i then .null else .junk

/-- The function `builtInExit`. -/
def builtInExit (st : Shell) (size : Nat) : Run :=
  if size = 1 then ⟨.exited 0, st, []⟩ else report st

/-- The function `builtInCd`. -/
def builtInCd (os : OS) (st : Shell) (cnt : Nat) (tokens : List Str) : Run :=
  if cnt = 2 then
    match (cell tokens 1).bind (os.chdir st.cwd) with
    | some dir => ⟨.returned, { st with cwd := dir }, []⟩
    | none => report st
  else report st

/-- The function `builtInPath`: cell `i` of `path` receives `tokens[i + 1]` for `i < size`.
The last of them, `tokens[size]`, lies one past the cells `parseCommand` stored (the source
takes it for the terminator: "including NULL at the end"). -/
def builtInPath (os : OS) (st : Shell) (size : Nat) (tokens : List Str) : Run :=
  ⟨.returned, { st with path := (List.range size).map (fun i => word os st tokens (i + 1)) },
    []⟩

/-- The loop of `runProgram` over the cells of `path` from the current index on. The block
of `executable` is the one `strdup(path[i])` returns, for `strlen(path[i]) + 1` bytes; the
two `strcat` make the string `strlen(path[i]) + strlen(command) + 2` bytes long. After the
last cell stored the loop reads a word the program has not stored. -/
def runProgramFrom (os : OS) (st : Shell) (args : List Str) : List Word → Run
  | .ptr dir :: rest =>
    match cell args 0 with
    | none => ⟨.fault, st, []⟩
    | some command =>
      let executable := dir ++ '/' :: command
      if os.usable (dir.length + 1) < dir.length + command.length + 2 then ⟨.fault, st, []⟩
      else if os.access executable then
        if os.fork st.forks then
          ⟨.returned, { st with forks := st.forks + 1, children := st.children + 1 - 1 },
            [.access executable, .fork (.exec executable args st.out st.cwd) true, .wait]⟩
        else
          ⟨.returned, { st with forks := st.forks + 1 },
            [.access executable, .fork (.exec executable args st.out st.cwd) false,
              .stderr error_message]⟩
      else
        let r := runProgramFrom os st args rest
        ⟨r.outcome, r.state, .access executable :: r.trace⟩
  | .null :: _ => report st
  | .junk :: _ => ⟨.fault, st, []⟩
  | [] => if os.zero st .path st.path.length then report st else ⟨.fault, st, []⟩

/-- The function `runProgram`. -/
def runProgram (os : OS) (st : Shell) (args : List Str) : Run :=
  runProgramFrom os st args st.path

/-- The function `selectCommand`. Comparing `tokens[0]` is a fault when the program has
stored no token there. -/
def selectCommand (os : OS) (st : Shell) (size : Nat) (tokens : List Str) : Run :=
  match cell tokens 0 with
  | none => ⟨.fault, st, [.select tokens]⟩
  | some name =>
    let r :=
      if name = "exit".toList then builtInExit st size
      else if name = "cd".toList then builtInCd os st size tokens
      else if name = "path".toList then builtInPath os st size tokens
      else runProgram os st tokens
    ⟨r.outcome, r.state, .select tokens :: r.trace⟩

/-- The token array built by the first loop of `parseCommand` (and by the second loop of
`parseRedirect`): the non-empty tokens of `strsep` on `" \t"`. -/
def tokenize (line : Str) : List Str :=
  (strsepAll blanks line).filter (fun token => token ≠ [])

/-- The state in which `freopen(filename, "w", stdout)` leaves the process. When the stream
`stdout` is attached to file descriptor 1 the call moves that descriptor to the file, or
closes it when the file cannot be opened; when an earlier `fclose` has closed the stream,
the file is opened (and truncated) on another descriptor and file descriptor 1 stays where
it is. -/
def afterFreopen (os : OS) (st : Shell) (name : Str) : Shell :=
  if os.freopen name then
    if st.stdoutOpen then { st with out := .file name, target := some name }
    else { st with target := some name }
  else
    if st.stdoutOpen then { st with out := .closed, stdoutOpen := false }
    else st

/-- The function `parseCommand`; `filename = none` is the `NULL` argument. The guard
`*tokens == NULL` reads word 0 of the token array, which the program has stored only when
there is a token. When `freopen` fails, `file` is `NULL` and the later `fclose(file)` is a
fault. `fclose(file)` closes the stream `stdout` itself, since `file` is `stdout`, and `dup2`
puts file descriptor 1 back where `dup` found it. -/
def parseCommand (os : OS) (st : Shell) (line : Str) (filename : Option Str) : Run :=
  let tokens := tokenize line
  if word os st tokens 0 = .null then ⟨.returned, st, []⟩
  else
    match filename with
    | none => selectCommand os st tokens.length tokens
    | some name =>
      let r := selectCommand os (afterFreopen os st name) tokens.length tokens
      match r.outcome with
      | .returned =>
        if os.freopen name then
          ⟨.returned, { r.state with out := st.out, stdoutOpen := false, target := none },
            .freopen name true :: r.trace ++ [.fclose name]⟩
        else ⟨.fault, r.state, .freopen name false :: r.trace⟩
      | o => ⟨o, r.state, .freopen name (os.freopen name) :: r.trace⟩

/-- The first loop of `parseRedirect` over the tokens of `strsep` on `">"`: `none` when an
empty token makes the function report and return. -/
def redirectLoop : List Str → List Str → Option (List Str)
  | [], redTokens => some redTokens
  | token :: rest, redTokens =>
    if token = [] then none else redirectLoop rest (redTokens ++ [token])

/-- The function `parseRedirect`. -/
def parseRedirect (os : OS) (st : Shell) (line : Str) : Run :=
  match redirectLoop (strsepAll ['>'] line) [] with
  | none => report st
  | some redTokens =>
    if redTokens.length ≠ 2 then report st
    else
      match cell redTokens 1 with
      | none => ⟨.fault, st, []⟩
      | some half =>
        let nameTokens := tokenize half
        if nameTokens.length ≠ 1 then report st
        else
          match cell redTokens 0 with
          | none => ⟨.fault, st, []⟩
          | some command => parseCommand os st command (cell nameTokens 0)

/-- The loop of `parseParallel` as the parent runs it, over the tokens of `strsep` on `"&"`;
the child tests the whole `line` for `">"`. -/
def parallelLoop (os : OS) (line : Str) : Shell → List Str → Shell × List Event
  | st, [] => (st, [])
  | st, token :: rest =>
    if token = [] then parallelLoop os line st rest
    else
      let child := if '>' ∈ line then Child.redirect token else Child.command token
      if os.fork st.forks then
        let r := parallelLoop os line
          { st with forks := st.forks + 1, children := st.children + 1 } rest
        (r.1, .fork child true :: r.2)
      else
        let r := parallelLoop os line { st with forks := st.forks + 1 } rest
        (r.1, .fork child false :: .stderr error_message :: r.2)

/-- The loop `while (wait(NULL) > 0) {}` with `n` children outstanding. -/
def waitAll : Nat → List Event
  | 0 => []
  | n + 1 => .wait :: waitAll n

/-- The function `parseParallel`, in the parent. -/
def parseParallel (os : OS) (st : Shell) (line : Str) : Run :=
  let r := parallelLoop os line st (strsepAll ['&'] line)
  ⟨.returned, { r.1 with children := 0 }, r.2 ++ waitAll r.1.children⟩

/-- The statement `exit(EXIT_SUCCESS)` that ends a child of `parseParallel`. -/
def exitSuccess (r : Run) : Run :=
  match r.outcome with
  | .returned => { r with outcome := .exited 0 }
  | _ => r

/-- The run of a child on its copy `st` of the state of the shell at the `fork`. A child of
`runProgram` calls `execv`: when the call succeeds the image of the process is replaced and
the embedding stops (`none`); when it fails the child frees `executable` and returns from
`runProgram` into its caller, a second copy of the shell. -/
def runChild (os : OS) (st : Shell) : Child → Option Run
  | .redirect token => some (exitSuccess (parseRedirect os { st with children := 0 } token))
  | .command token => some (exitSuccess (parseCommand os { st with children := 0 } token none))
  | .exec executable _ _ _ =>
    if os.execv executable then none else some ⟨.returned, { st with children := 0 }, []⟩

/-- The body of the loop of `interactive` for one line. -/
def interactiveStep (os : OS) (st : Shell) (line : Str) : Run :=
  if '&' ∈ line then parseParallel os st line
  else if '>' ∈ line then parseRedirect os st line
  else parseCommand os st line none

/-- The body of the loop of `batch` for one line. -/
def batchStep (os : OS) (st : Shell) (line : Str) : Run :=
  if '&' ∈ line then parseParallel os st line
  else if '>' ∈ line then parseRedirect os st line
  else parseCommand os st line none

/-- The number of copies of the error message a trace writes. -/
def errorCount (trace : List Event) : Nat := trace.count (.stderr error_message)

/-- The children a trace creates. -/
def spawned : List Event → List Child
  | [] => []
  | .fork child true :: rest => child :: spawned rest
  | _ :: rest => spawned rest

/-- The token lists a trace hands to `selectCommand`. -/
def dispatched : List Event → List (List Str)
  | [] => []
  | .select tokens :: rest => tokens :: dispatched rest
  | _ :: rest => dispatched rest

/-- The file names a trace passes to `freopen` (which creates or truncates them). -/
def openedFiles : List Event → List Str
  | [] => []
  | .freopen name _ :: rest => name :: openedFiles rest
  | _ :: rest => openedFiles rest

/-- The fork calls of a trace, in order: what the child was to do and whether it was
created. -/
def attempts : List Event → List (Child × Bool)
  | [] => []
  | .fork child created :: rest => (child, created) :: attempts rest
  | _ :: rest => attempts rest

/-- The directories at the head of an array of path cells, up to the first cell that holds
no pointer: the ones the loop of `runProgram` builds candidates from. -/
def entries : List Word → List Str
  | .ptr dir :: rest => dir :: entries rest
  | _ => []

/-- The search path of a shell: the directories `runProgram` consults, in order. -/
def searchPath (st : Shell) : List Str := entries st.path

/-- The maximal runs of characters other than space and tab of a string, in order: the
string is read from the left, a space or tab is skipped, and a run is a non-empty stretch
without space or tab that is followed by a space or tab or ends the string. -/
inductive MaximalRuns : Str → List Str → Prop
  | done : MaximalRuns [] []
  | skip (c : Char) (s : Str) (ts : List Str) :
      c ∈ blanks → MaximalRuns s ts → MaximalRuns (c :: s) ts
  | run (t s : Str) (ts : List Str) :
      t ≠ [] → (∀ c ∈ t, c ∉ blanks) → (∀ c ∈ s.head?, c ∈ blanks) →
      MaximalRuns s ts → MaximalRuns (t ++ s) (t :: ts)

/-- The redirections the specification accepts: splitting `seg` on `>` yields exactly two
pieces, `command` and a target, both non-empty, and the target splits on space and tab into
exactly one token, `name`. -/
def RedirectShape (seg command name : Str) : Prop :=
  ∃ target, strsepAll ['>'] seg = [command, target] ∧ command ≠ [] ∧ target ≠ [] ∧
    tokenize target = [name]

/-- The non-empty segments of a line split on `&`, in order. -/
def segments (line : Str) : List Str :=
  (strsepAll ['&'] line).filter (fun token => token ≠ [])

/-- The child `parseParallel` creates for a segment of `line`. -/
def childFor (line token : Str) : Child :=
  if '>' ∈ line then Child.redirect token else Child.command token

/-- The fork calls `parseParallel` is to make for the segments `segs` of `line`, in order,
when the process has made `n` fork calls before: one for each segment. -/
def expectedAttempts (os : OS) (line : Str) : Nat → List Str → List (Child × Bool)
  | _, [] => []
  | n, seg :: segs => (childFor line seg, os.fork n) :: expectedAttempts os line (n + 1) segs

/-- The loop of `batch` over the lines `getline` reads from the file, each cut at its
newline: the next line is read only when the processing of the line before it returned. -/
def batchLoop (os : OS) : Shell → List Str → Run
  | st, [] => ⟨.returned, st, []⟩
  | st, line :: rest =>
    match (batchStep os st line).outcome with
    | .returned =>
      ⟨(batchLoop os (batchStep os st line).state rest).outcome,
        (batchLoop os (batchStep os st line).state rest).state,
        (batchStep os st line).trace ++ (batchLoop os (batchStep os st line).state rest).trace⟩
    | _ => batchStep os st line

/-- The function `batch`. The argument `file` is what `fopen(filename, "r")` gives: `none`
when the file cannot be opened, otherwise the lines of the file. After the last line the
function calls `builtInExit(1)`. -/
def batch (os : OS) (st : Shell) (file : Option (List Str)) : Run :=
  match file with
  | none => ⟨.exited 1, st, [.stderr error_message]⟩
  | some lines =>
    match (batchLoop os st lines).outcome with
    | .returned =>
      ⟨(builtInExit (batchLoop os st lines).state 1).outcome,
        (builtInExit (batchLoop os st lines).state 1).state,
        (batchLoop os st lines).trace ++ (builtInExit (batchLoop os st lines).state 1).trace⟩
    | _ => batchLoop os st lines

/-- The loop of `interactive` over the lines `getline` reads from standard input. The source
leaves the loop only when a line ends the process; `returned` after the last line read stands
for the loop still going on. -/
def interactive (os : OS) : Shell → List Str → Run
  | st, [] => ⟨.returned, st, []⟩
  | st, line :: rest =>
    match (interactiveStep os st line).outcome with
    | .returned =>
      ⟨(interactive os (interactiveStep os st line).state rest).outcome,
        (interactive os (interactiveStep os st line).state rest).state,
        (interactiveStep os st line).trace
          ++ (interactive os (interactiveStep os st line).state rest).trace⟩
    | _ => interactiveStep os st line

/-- The function `main` started in the directory `cwd` with `argc` arguments (the program
name included): `input` is what standard input delivers and `file` what opening `argv[1]`
gives. A `batch` that returned would make `main` return 0. -/
def main (os : OS) (cwd : Str) (argc : Nat) (file : Option (List Str)) (input : List Str) :
    Run :=
  if argc = 1 then interactive os (initialShell cwd) input
  else if argc = 2 then
    match (batch os (initialShell cwd) file).outcome with
    | .returned =>
      ⟨.exited 0, (batch os (initialShell cwd) file).state,
        (batch os (initialShell cwd) file).trace⟩
    | _ => batch os (initialShell cwd) file
  else ⟨.exited 1, initialShell cwd, [.stderr error_message]⟩

/-- Everything a trace writes to standard error, in order. -/
def stderrText : List Event → Str
  | [] => []
  | .stderr text :: rest => text ++ stderrText rest
  | _ :: rest => stderrText rest

/-- An operating system and C library for the examples, after glibc on a 64-bit machine.
The files `/bin/ls` and `/usr/bin/ls` are programs; `/bin/..` is a directory, which passes
the test of `access` for execute permission and which `execv` refuses; the directory `/tmp`
exists, every `fork` succeeds and every file opens. A block allocated for `n` bytes has
`max 24 (16 * ((n + 23) / 16) - 8)` usable bytes. A word past the cells stored in an array
reads as `NULL` only when it lies within the usable bytes of the block of the array (the
word after them is the size field of the next block); for the token array, which every
command allocates anew, the heap must moreover hold no freed block yet, which is taken to be
so until an external command has run or a redirection has closed `stdout`: from then on
freed blocks are handed out again with their old contents. -/
def demoOS : OS where
  access := fun p => decide (p = "/bin/ls".toList) || decide (p = "/usr/bin/ls".toList)
    || decide (p = "/bin/..".toList)
  chdir := fun _ dir => if dir = "/tmp".toList then some dir else none
  fork := fun _ => true
  freopen := fun _ => true
  execv := fun p => decide (p = "/bin/ls".toList) || decide (p = "/usr/bin/ls".toList)
  usable := fun n => max 24 (16 * ((n + 23) / 16) - 8)
  zero := fun st b i =>
    decide ((i + 1) * 8 ≤ max 24 (16 * ((i * 8 + 23) / 16) - 8))
      && (decide (b = Block.path) || (decide (st.forks = 0) && st.stdoutOpen))

/-! ## Splitting and tokenizing -/

theorem strsepAll_ne_nil (d : List Char) (s : Str) : strsepAll d s ≠ [] := by
  cases s with
  | nil => simp [strsepAll]
  | cons c cs =>
    by_cases h : c ∈ d
    · simp [strsepAll, h]
    · cases hp : strsepAll d cs <;> simp [strsepAll, h, hp]

theorem strsepAll_delim (d : List Char) (c : Char) (s : Str) (h : c ∈ d) :
    strsepAll d (c :: s) = [] :: strsepAll d s := by
  simp [strsepAll, h]

theorem strsepAll_run (d : List Char) (t s : Str) (ht : ∀ c ∈ t, c ∉ d) :
    strsepAll d (t ++ s) = (t ++ (strsepAll d s).headI) :: (strsepAll d s).tail := by
  induction t with
  | nil =>
    cases hp : strsepAll d s with
    | nil => exact absurd hp (strsepAll_ne_nil d s)
    | cons a l => simp [List.headI, hp]
  | cons c cs ih =>
    have hc : c ∉ d := ht c (List.mem_cons_self _ _)
    have ih2 := ih (fun x hx => ht x (List.mem_cons_of_mem _ hx))
    simp [strsepAll, hc, ih2]

theorem strsepAll_no_delim (d : List Char) (s : Str) :
    ∀ t ∈ strsepAll d s, ∀ c ∈ t, c ∉ d := by
  induction s with
  | nil => simp [strsepAll]
  | cons c cs ih =>
    by_cases h : c ∈ d
    · intro t ht
      rw [strsepAll_delim d c cs h] at ht
      rcases List.mem_cons.mp ht with rfl | ht
      · simp
      · exact ih t ht
    · cases hp : strsepAll d cs with
      | nil => exact absurd hp (strsepAll_ne_nil d cs)
      | cons a l =>
        rw [hp] at ih
        intro t ht
        simp only [strsepAll, h, hp, if_false] at ht
        rcases List.mem_cons.mp ht with rfl | ht
        · intro x hx
          rcases List.mem_cons.mp hx with rfl | hx
          · exact h
          · exact ih a (List.mem_cons_self _ _) x hx
        · exact ih t (List.mem_cons_of_mem _ ht)

theorem strsepAll_join (d : List Char) (s : Str) :
    (strsepAll d s).flatten = s.filter (fun c => c ∉ d) := by
  induction s with
  | nil => simp [strsepAll]
  | cons c cs ih =>
    by_cases h : c ∈ d
    · simp [strsepAll, h, ih]
    · cases hp : strsepAll d cs with
      | nil => exact absurd hp (strsepAll_ne_nil d cs)
      | cons a l =>
        rw [hp] at ih
        simp [strsepAll, h, hp] 
        simpa using ih

theorem tokenize_blank (c : Char) (s : Str) (h : c ∈ blanks) :
    tokenize (c :: s) = tokenize s := by
  simp [tokenize, strsepAll_delim blanks c s h]

theorem tokenize_run (t s : Str) (hne : t ≠ []) (ht : ∀ c ∈ t, c ∉ blanks)
    (hs : ∀ c ∈ s.head?, c ∈ blanks) : tokenize (t ++ s) = t :: tokenize s := by
  unfold tokenize
  rw [strsepAll_run blanks t s ht]
  cases s with
  | nil => simp [strsepAll, List.headI, hne]
  | cons b r =>
    have hb : b ∈ blanks := hs b (by simp)
    simp [strsepAll_delim blanks b r hb, List.headI, hne]

theorem maximalRuns_tokenize (s : Str) : MaximalRuns s (tokenize s) := by
  generalize hn : s.length = n
  induction n using Nat.strong_induction_on generalizing s with
  | _ n ih =>
    cases s with
    | nil => exact MaximalRuns.done
    | cons c cs =>
      by_cases hc : c ∈ blanks
      · rw [tokenize_blank c cs hc]
        exact MaximalRuns.skip c cs _ hc (ih cs.length (by simp [← hn]) cs rfl)
      · have hsplit : c :: cs = (c :: cs.takeWhile (fun x => !decide (x ∈ blanks)))
            ++ cs.dropWhile (fun x => !decide (x ∈ blanks)) := by
          simp [List.takeWhile_append_dropWhile]
        have hrun : ∀ x ∈ c :: cs.takeWhile (fun x => !decide (x ∈ blanks)), x ∉ blanks := by
          intro x hx
          rcases List.mem_cons.mp hx with rfl | hx
          · exact hc
          · simpa using List.mem_takeWhile_imp hx
        have hnext : ∀ x ∈ (cs.dropWhile (fun x => !decide (x ∈ blanks))).head?, x ∈ blanks := by
          intro x hx
          have := List.head?_dropWhile_not (fun x => !decide (x ∈ blanks)) cs
          rw [Option.mem_def] at hx
          rw [hx] at this
          simpa using this
        have hlen : (cs.dropWhile (fun x => !decide (x ∈ blanks))).length < n := by
          have := (List.dropWhile_suffix (l := cs) (fun x => !decide (x ∈ blanks))).length_le
          simp [← hn]; omega
        rw [hsplit, tokenize_run _ _ (by simp) hrun hnext]
        exact MaximalRuns.run _ _ _ (by simp) hrun hnext (ih _ hlen _ rfl)

theorem maximalRuns_unique (s : Str) (ts : List Str) (h : MaximalRuns s ts) :
    ts = tokenize s := by
  induction h with
  | done => simp [tokenize, strsepAll]
  | skip c s ts hc _ ih => rw [tokenize_blank c s hc, ih]
  | run t s ts hne ht hs _ ih => rw [tokenize_run t s hne ht hs, ih]

theorem strsepAll_step (d : List Char) (s : Str) :
    strsepAll d s =
      match strsep d (some s) with
      | some (token, some rem) => token :: strsepAll d rem
      | some (token, none) => [token]
      | none => [] := by
  induction s with
  | nil => simp [strsepAll, strsep, strsepScan]
  | cons c cs ih =>
    by_cases h : c ∈ d
    · simp [strsepAll, strsep, strsepScan, h]
    · simp only [strsep] at ih
      simp only [strsepAll, strsep, strsepScan, if_neg h]
      rw [ih]
      rcases strsepScan d cs with ⟨token, _ | rem⟩ <;> rfl

/-! ## Traces -/

theorem dispatched_append (a b : List Event) :
    dispatched (a ++ b) = dispatched a ++ dispatched b := by
  induction a with
  | nil => rfl
  | cons e a ih => cases e <;> simp [dispatched, ih]

theorem spawned_append (a b : List Event) : spawned (a ++ b) = spawned a ++ spawned b := by
  induction a with
  | nil => rfl
  | cons e a ih =>
    cases e with
    | fork child created => cases created <;> simp [spawned, ih]
    | _ => simp [spawned, ih]

theorem openedFiles_append (a b : List Event) :
    openedFiles (a ++ b) = openedFiles a ++ openedFiles b := by
  induction a with
  | nil => rfl
  | cons e a ih => cases e <;> simp [openedFiles, ih]

theorem attempts_append (a b : List Event) : attempts (a ++ b) = attempts a ++ attempts b := by
  induction a with
  | nil => rfl
  | cons e a ih => cases e <;> simp [attempts, ih]

theorem word_cons (os : OS) (st : Shell) (t : Str) (ts : List Str) :
    word os st (t :: ts) 0 = .ptr t := rfl

theorem word_nil (os : OS) (st : Shell) :
    word os st [] 0 = if os.zero st .tokens 0 then .null else .junk := rfl

theorem word_zero_null (os : OS) (st : Shell) (tokens : List Str) :
    word os st tokens 0 = .null ↔ tokens = [] ∧ os.zero st .tokens 0 = true := by
  cases tokens with
  | nil => rw [word_nil]; split_ifs with h <;> simp [h]
  | cons t ts => simp [word_cons]

theorem runProgramFrom_dispatched (os : OS) (st : Shell) (args : List Str)
    (cells : List Word) : dispatched (runProgramFrom os st args cells).trace = [] := by
  induction cells with
  | nil => simp only [runProgramFrom]; split_ifs <;> simp [report, dispatched]
  | cons d rest ih =>
    cases d with
    | null => simp [runProgramFrom, report, dispatched]
    | junk => simp [runProgramFrom, dispatched]
    | ptr dir =>
      cases hc : cell args 0 with
      | none => simp [runProgramFrom, hc, dispatched]
      | some command =>
        simp only [runProgramFrom, hc]
        split_ifs <;> simp [dispatched, ih]

theorem selectCommand_dispatched (os : OS) (st : Shell) (size : Nat) (tokens : List Str) :
    dispatched (selectCommand os st size tokens).trace = [tokens] := by
  unfold selectCommand
  cases hc : cell tokens 0 with
  | none => simp [dispatched]
  | some name =>
    simp only [dispatched]
    split_ifs
    · simp [builtInExit, report]; split_ifs <;> simp [dispatched]
    · simp [builtInCd, report]; split_ifs
      · split <;> simp [dispatched]
      · simp [dispatched]
    · simp [builtInPath, dispatched]
    · simp [runProgram, runProgramFrom_dispatched]

theorem parseCommand_dispatched (os : OS) (st : Shell) (line : Str) (filename : Option Str) :
    dispatched (parseCommand os st line filename).trace
      = if word os st (tokenize line) 0 = .null then [] else [tokenize line] := by
  unfold parseCommand
  by_cases hw : word os st (tokenize line) 0 = .null
  · simp [hw, dispatched]
  · simp only [hw, if_false]
    cases filename with
    | none => simp [selectCommand_dispatched]
    | some name =>
      simp only
      generalize hr : selectCommand os _ _ _ = r
      have hd : dispatched r.trace = [tokenize line] := by
        rw [← hr]; exact selectCommand_dispatched _ _ _ _
      cases hro : r.outcome <;> simp only [] <;> (try split_ifs) <;>
        simp [dispatched, dispatched_append, hd]

/-- C7: the token list `parseCommand` builds from a segment, and hands to `selectCommand`,
is exactly the sequence of maximal runs of characters other than space and tab, in order;
every token is non-empty and holds no space or tab, and the tokens concatenated are the
segment without its spaces and tabs. -/
theorem tokenize_maximal_runs (os : OS) (st : Shell) (s : Str) (filename : Option Str) :
    (∀ ts ∈ dispatched (parseCommand os st s filename).trace, ts = tokenize s) ∧
    MaximalRuns s (tokenize s) ∧
    (∀ ts, MaximalRuns s ts → ts = tokenize s) ∧
    (∀ t ∈ tokenize s, t ≠ [] ∧ ' ' ∉ t ∧ '\t' ∉ t) ∧
    (tokenize s).flatten = s.filter (fun c => c ≠ ' ' ∧ c ≠ '\t') := by
  refine ⟨?_, maximalRuns_tokenize s, maximalRuns_unique s, ?_, ?_⟩
  · intro ts hts
    rw [parseCommand_dispatched] at hts
    split_ifs at hts
    · simp at hts
    · simpa using hts
  · intro t ht
    have hmem := List.mem_filter.mp ht
    have hno := strsepAll_no_delim blanks s t hmem.1
    refine ⟨by simpa using hmem.2, fun h => hno _ h (by simp [blanks]),
      fun h => hno _ h (by simp [blanks])⟩
  · have hj := strsepAll_join blanks s
    have hf : (tokenize s).flatten = (strsepAll blanks s).flatten := by
      unfold tokenize
      generalize strsepAll blanks s = l
      induction l with
      | nil => rfl
      | cons a l ih =>
        by_cases ha : a = [] <;> simp [ha] <;> simpa using ih
    rw [hf, hj]
    congr 1
    funext c
    simp [blanks]

/-! ## Built-in commands -/

theorem selectCommand_exit (os : OS) (st : Shell) (size : Nat) (rest : List Str) :
    selectCommand os st size ("exit".toList :: rest)
      = ⟨(builtInExit st size).outcome, (builtInExit st size).state,
          .select ("exit".toList :: rest) :: (builtInExit st size).trace⟩ := by
  simp [selectCommand, cell]

theorem selectCommand_cd (os : OS) (st : Shell) (size : Nat) (rest : List Str) :
    selectCommand os st size ("cd".toList :: rest)
      = ⟨(builtInCd os st size ("cd".toList :: rest)).outcome,
          (builtInCd os st size ("cd".toList :: rest)).state,
          .select ("cd".toList :: rest) :: (builtInCd os st size ("cd".toList :: rest)).trace⟩ := by
  simp [selectCommand, cell]

theorem selectCommand_path (os : OS) (st : Shell) (size : Nat) (rest : List Str) :
    selectCommand os st size ("path".toList :: rest)
      = ⟨.returned, (builtInPath os st size ("path".toList :: rest)).state,
          [.select ("path".toList :: rest)]⟩ := by
  simp [selectCommand, cell, builtInPath]

theorem selectCommand_program (os : OS) (st : Shell) (size : Nat) (c : Str) (rest : List Str)
    (h1 : c ≠ "exit".toList) (h2 : c ≠ "cd".toList) (h3 : c ≠ "path".toList) :
    selectCommand os st size (c :: rest)
      = ⟨(runProgram os st (c :: rest)).outcome, (runProgram os st (c :: rest)).state,
          .select (c :: rest) :: (runProgram os st (c :: rest)).trace⟩ := by
  simp only [selectCommand, cell, List.get?_cons_zero]
  rw [if_neg h1, if_neg h2, if_neg h3]

/-- C9: a token list whose first token is `exit` ends the shell, with status 0, exactly when
it has no further token; with a further token one error message is written, the shell does
not end and its state is unchanged. -/
theorem exit_terminates_iff_no_argument (os : OS) (st : Shell) (rest : List Str) :
    ((∃ status, (selectCommand os st ("exit".toList :: rest).length
        ("exit".toList :: rest)).outcome = .exited status) ↔ rest = []) ∧
    (rest = [] → selectCommand os st ("exit".toList :: rest).length ("exit".toList :: rest)
        = ⟨.exited 0, st, [.select ["exit".toList]]⟩) ∧
    (rest ≠ [] → selectCommand os st ("exit".toList :: rest).length ("exit".toList :: rest)
        = ⟨.returned, st, [.select ("exit".toList :: rest), .stderr error_message]⟩) := by
  rw [selectCommand_exit]
  cases rest with
  | nil => simp [builtInExit]
  | cons a l => simp [builtInExit, report]

/-- The lines `exit` and `exit foo`: the first ends the shell with status 0 and writes no
error, the second writes one error message and leaves the shell running, its state
unchanged. -/
theorem exit_terminates_iff_no_argument_witness :
    tokenize "exit".toList = ["exit".toList] ∧
    tokenize "exit foo".toList = ["exit".toList, "foo".toList] ∧
    interactiveStep demoOS (initialShell []) "exit".toList
      = ⟨.exited 0, initialShell [], [.select ["exit".toList]]⟩ ∧
    interactiveStep demoOS (initialShell []) "exit foo".toList
      = ⟨.returned, initialShell [], [.select ["exit".toList, "foo".toList],
          .stderr error_message]⟩ ∧
    selectCommand demoOS (initialShell []) 2 ["exit".toList, "foo".toList]
      = ⟨.returned, initialShell [], [.select ["exit".toList, "foo".toList],
          .stderr error_message]⟩ :=
  ⟨by decide, by decide, by decide, by decide,
    (exit_terminates_iff_no_argument demoOS (initialShell []) ["foo".toList]).2.2 (by decide)⟩

/-- C10: a token list whose first token is `cd` changes the working directory only when it
has exactly one argument and the operating system accepts the change, and then the working
directory is the one the operating system resolved for that argument; with no argument,
with two or more, or when the change is refused, one error message is written and the state
of the shell is unchanged. -/
theorem cd_changes_directory_iff_one_accepted_argument (os : OS) (st : Shell)
    (args : List Str) :
    (∀ dir new, args = [dir] → os.chdir st.cwd dir = some new →
      selectCommand os st ("cd".toList :: args).length ("cd".toList :: args)
        = ⟨.returned, { st with cwd := new }, [.select ("cd".toList :: args)]⟩) ∧
    ((∀ dir, args = [dir] → os.chdir st.cwd dir = none) →
      selectCommand os st ("cd".toList :: args).length ("cd".toList :: args)
        = ⟨.returned, st, [.select ("cd".toList :: args), .stderr error_message]⟩) ∧
    ((selectCommand os st ("cd".toList :: args).length ("cd".toList :: args)).state.cwd ≠ st.cwd →
      ∃ dir, args = [dir] ∧ os.chdir st.cwd dir
        = some (selectCommand os st ("cd".toList :: args).length
            ("cd".toList :: args)).state.cwd) := by
  rw [selectCommand_cd]
  match args with
  | [] => simp [builtInCd, report]
  | [dir] =>
    cases h : os.chdir st.cwd dir <;> simp [builtInCd, report, cell, h]
    · intro d new hd; subst hd; simp [h]
    · intro d new hd; subst hd; simp [h]
  | a :: b :: l => simp [builtInCd, report]

/-- The lines `cd` and `cd one two` write one error message and change nothing; `cd /tmp`
changes the working directory to `/tmp`. -/
theorem cd_changes_directory_iff_one_accepted_argument_witness :
    interactiveStep demoOS (initialShell "/home".toList) "cd".toList
      = ⟨.returned, initialShell "/home".toList, [.select ["cd".toList],
          .stderr error_message]⟩ ∧
    interactiveStep demoOS (initialShell "/home".toList) "cd one two".toList
      = ⟨.returned, initialShell "/home".toList,
          [.select ["cd".toList, "one".toList, "two".toList], .stderr error_message]⟩ ∧
    interactiveStep demoOS (initialShell "/home".toList) "cd /tmp".toList
      = ⟨.returned, initialShell "/tmp".toList, [.select ["cd".toList, "/tmp".toList]]⟩ ∧
    selectCommand demoOS (initialShell "/home".toList) 3
        ["cd".toList, "one".toList, "two".toList]
      = ⟨.returned, initialShell "/home".toList,
          [.select ["cd".toList, "one".toList, "two".toList], .stderr error_message]⟩ :=
  ⟨by decide, by decide, by decide,
    (cd_changes_directory_iff_one_accepted_argument demoOS (initialShell "/home".toList)
      ["one".toList, "two".toList]).2.1 (by simp)⟩

/-! ## The search path -/

theorem path_cells (os : OS) (st : Shell) (p : Str) (ds : List Str) :
    (List.range (p :: ds).length).map (fun i => word os st (p :: ds) (i + 1))
      = ds.map Word.ptr
          ++ [if os.zero st .tokens (ds.length + 1) then Word.null else Word.junk] := by
  rw [List.length_cons, List.range_succ, List.map_append, List.map_singleton]
  congr 1
  · apply List.ext_getElem
    · simp
    · intro i h1 h2
      have hi : i < ds.length := by simpa using h1
      simp [word, cell, List.getElem?_eq_getElem hi]
  · simp [word, cell]

theorem entries_terminated (ds : List Str) (w : Word) (tail : List Word)
    (hw : ∀ s, w ≠ .ptr s) : entries (ds.map Word.ptr ++ w :: tail) = ds := by
  induction ds with
  | nil => cases w <;> simp_all [entries]
  | cons d ds ih => simp [entries, ih]

theorem builtInPath_path (os : OS) (st : Shell) (ds : List Str) :
    (selectCommand os st ("path".toList :: ds).length ("path".toList :: ds)).state
      = { st with path := ds.map Word.ptr
            ++ [if os.zero st .tokens (ds.length + 1) then Word.null else Word.junk] } := by
  rw [selectCommand_path]
  simp only [builtInPath, path_cells]

theorem runProgramFrom_unresolved (os : OS) (st : Shell) (c : Str) (rest : List Str)
    (ds : List Str) (tail : List Word)
    (hfit : ∀ d ∈ ds, d.length + c.length + 2 ≤ os.usable (d.length + 1))
    (h : ∀ d ∈ ds, os.access (d ++ '/' :: c) = false) :
    runProgramFrom os st (c :: rest) (ds.map Word.ptr ++ Word.null :: tail)
      = ⟨.returned, st, ds.map (fun d => Event.access (d ++ '/' :: c))
          ++ [.stderr error_message]⟩ := by
  induction ds with
  | nil => rfl
  | cons d ds ih =>
    have hd : os.access (d ++ '/' :: c) = false := h d (by simp)
    have hf : ¬ os.usable (d.length + 1) < d.length + c.length + 2 :=
      Nat.not_lt.mpr (hfit d (by simp))
    have ih2 := ih (fun x hx => hfit x (by simp [hx])) (fun x hx => h x (by simp [hx]))
    simp only [List.map_cons, List.cons_append, runProgramFrom, cell, List.get?_cons_zero,
      if_neg hf, hd]
    simp [ih2]

theorem runProgramFrom_resolved (os : OS) (st : Shell) (c : Str) (rest : List Str)
    (pre : List Str) (d : Str) (post : List Word)
    (hfit : ∀ p ∈ pre, p.length + c.length + 2 ≤ os.usable (p.length + 1))
    (hpre : ∀ p ∈ pre, os.access (p ++ '/' :: c) = false)
    (hfitd : d.length + c.length + 2 ≤ os.usable (d.length + 1))
    (hd : os.access (d ++ '/' :: c) = true) :
    runProgramFrom os st (c :: rest) (pre.map Word.ptr ++ Word.ptr d :: post)
      = ⟨.returned,
          { st with forks := st.forks + 1,
                    children := if os.fork st.forks then st.children + 1 - 1 else st.children },
          pre.map (fun p => Event.access (p ++ '/' :: c))
            ++ [.access (d ++ '/' :: c),
                .fork (.exec (d ++ '/' :: c) (c :: rest) st.out st.cwd) (os.fork st.forks),
                if os.fork st.forks then .wait else .stderr error_message]⟩ := by
  induction pre with
  | nil =>
    have hf : ¬ os.usable (d.length + 1) < d.length + c.length + 2 := Nat.not_lt.mpr hfitd
    cases hfk : os.fork st.forks <;>
      simp [runProgramFrom, cell, hd, hfk, if_neg hf]
  | cons p pre ih =>
    have hp : os.access (p ++ '/' :: c) = false := hpre p (by simp)
    have hf : ¬ os.usable (p.length + 1) < p.length + c.length + 2 :=
      Nat.not_lt.mpr (hfit p (by simp))
    have ih2 := ih (fun q hq => hfit q (by simp [hq])) (fun q hq => hpre q (by simp [hq]))
    simp only [List.map_cons, List.cons_append, runProgramFrom, cell, List.get?_cons_zero,
      if_neg hf, hp]
    simp [ih2]

theorem runProgramFrom_overflow (os : OS) (st : Shell) (c : Str) (rest : List Str)
    (d : Str) (post : List Word)
    (h : os.usable (d.length + 1) < d.length + c.length + 2) :
    runProgramFrom os st (c :: rest) (Word.ptr d :: post) = ⟨.fault, st, []⟩ := by
  simp [runProgramFrom, cell, h]

theorem runProgramFrom_spawned (os : OS) (st : Shell) (args : List Str)
    (cells : List Word) :
    (spawned (runProgramFrom os st args cells).trace).length ≤ 1 := by
  induction cells with
  | nil => simp only [runProgramFrom]; split_ifs <;> simp [report, spawned]
  | cons d cells ih =>
    cases d with
    | null => simp [runProgramFrom, report, spawned]
    | junk => simp [runProgramFrom, spawned]
    | ptr dir =>
      cases hc : cell args 0 with
      | none => simp [runProgramFrom, hc, spawned]
      | some command =>
        simp only [runProgramFrom, hc]
        split_ifs <;> simp [spawned, ih]

/-- C3 (evaluation of the code): `builtInPath` copies `tokens[1]` to `tokens[size]` into
`path`, and `tokens[size]` is a word `parseCommand` never stored: the search path ends where
the claim says only when that word happens to read as `NULL`. After the line
`path /dirA /dirB`, entered in a fresh shell, the third cell of `path` is the word after the
three cells of the token array, which is not `NULL`; the line `foo` then tests `/dirA/foo`
and `/dirB/foo` and runs into that word, a fault, instead of writing one error message. In
general the last cell stored is that word, whatever it holds; when it reads as `NULL` the
search path is the list of the arguments, and empty for no argument, so that every command
is then reported as unresolved. -/
theorem builtInPath_reads_past_tokens :
    (interactiveStep demoOS (initialShell []) "path /dirA /dirB".toList).state.path
      = [.ptr "/dirA".toList, .ptr "/dirB".toList, .junk] ∧
    interactiveStep demoOS
        (interactiveStep demoOS (initialShell []) "path /dirA /dirB".toList).state
        "foo".toList
      = ⟨.fault, (interactiveStep demoOS (initialShell []) "path /dirA /dirB".toList).state,
          [.select ["foo".toList], .access "/dirA/foo".toList,
            .access "/dirB/foo".toList]⟩ ∧
    (∀ (os : OS) (st : Shell) (ds : List Str),
      (selectCommand os st ("path".toList :: ds).length ("path".toList :: ds)).state.path
        = ds.map Word.ptr
            ++ [if os.zero st .tokens (ds.length + 1) then Word.null else Word.junk]) ∧
    (∀ (os : OS) (st : Shell) (ds : List Str), os.zero st .tokens (ds.length + 1) = true →
      searchPath (selectCommand os st ("path".toList :: ds).length
        ("path".toList :: ds)).state = ds ∧
      (selectCommand os st ("path".toList :: ds).length ("path".toList :: ds)).trace
        = [.select ("path".toList :: ds)] ∧
      (ds = [] → ∀ (os2 : OS) (c : Str) (rest : List Str),
        runProgram os2 (selectCommand os st ("path".toList :: ds).length
            ("path".toList :: ds)).state (c :: rest)
          = report (selectCommand os st ("path".toList :: ds).length
              ("path".toList :: ds)).state)) := by
  refine ⟨by decide, by decide, ?_, ?_⟩
  · intro os st ds
    rw [builtInPath_path]
  · intro os st ds hz
    refine ⟨?_, ?_, ?_⟩
    · rw [builtInPath_path, searchPath]
      simp only [hz, if_true]
      exact entries_terminated ds .null [] (by simp)
    · rw [selectCommand_path]
    · intro hds os2 c rest
      subst hds
      have hz1 : os.zero st .tokens 1 = true := by simpa using hz
      rw [builtInPath_path]
      simp [hz1, runProgram, runProgramFrom]

/-- C2 (evaluation of the code): `runProgram` builds each candidate with `strcat` in the
block `strdup(path[i])` returned, which has room for the directory only, and has no
statement for a child whose `execv` fails. With the search path `/a, /b, /c`, a command
name of 28 characters, found in no directory, does not fit the block of the first candidate:
the run ends in a fault with no error message. The command `..` passes the test of `access`
as `/bin/..`, a child is created and waited for, and the child, whose `execv` fails, does
not execute the candidate but returns from `runProgram` as a second copy of the shell. When
every candidate fits its block the directories are tried in order as the claim says: the
first executable candidate gets the one `fork`, and without any the run writes one error
message. -/
theorem runProgram_overflows_candidate_block :
    (interactiveStep demoOS (initialShell []) "path /a /b /c".toList).state.path
      = [.ptr "/a".toList, .ptr "/b".toList, .ptr "/c".toList, .null] ∧
    interactiveStep demoOS (interactiveStep demoOS (initialShell []) "path /a /b /c".toList).state
        "aaaaaaaaaaaaaaaaaaaaaaaaaaaa".toList
      = ⟨.fault, (interactiveStep demoOS (initialShell []) "path /a /b /c".toList).state,
          [.select ["aaaaaaaaaaaaaaaaaaaaaaaaaaaa".toList]]⟩ ∧
    interactiveStep demoOS (initialShell []) "..".toList
      = ⟨.returned, { initialShell [] with forks := 1 },
          [.select ["..".toList], .access "/bin/..".toList,
            .fork (.exec "/bin/..".toList ["..".toList] .inherited []) true, .wait]⟩ ∧
    runChild demoOS (initialShell []) (.exec "/bin/..".toList ["..".toList] .inherited [])
      = some ⟨.returned, initialShell [], []⟩ ∧
    (∀ (os : OS) (st : Shell) (c : Str) (rest : List Str) (d : Str) (post : List Word),
      os.usable (d.length + 1) < d.length + c.length + 2 →
      runProgramFrom os st (c :: rest) (Word.ptr d :: post) = ⟨.fault, st, []⟩) ∧
    (∀ (os : OS) (st : Shell) (args : List Str),
      (spawned (runProgram os st args).trace).length ≤ 1) ∧
    (∀ (os : OS) (st : Shell) (c : Str) (rest : List Str) (pre : List Str) (d : Str)
        (post : List Word), st.path = pre.map Word.ptr ++ Word.ptr d :: post →
      (∀ p ∈ pre, p.length + c.length + 2 ≤ os.usable (p.length + 1)) →
      (∀ p ∈ pre, os.access (p ++ '/' :: c) = false) →
      d.length + c.length + 2 ≤ os.usable (d.length + 1) →
      os.access (d ++ '/' :: c) = true →
      runProgram os st (c :: rest)
        = ⟨.returned,
            { st with forks := st.forks + 1,
                      children := if os.fork st.forks then st.children + 1 - 1
                        else st.children },
            pre.map (fun p => Event.access (p ++ '/' :: c))
              ++ [.access (d ++ '/' :: c),
                  .fork (.exec (d ++ '/' :: c) (c :: rest) st.out st.cwd) (os.fork st.forks),
                  if os.fork st.forks then .wait else .stderr error_message]⟩) ∧
    (∀ (os : OS) (st : Shell) (c : Str) (rest : List Str) (ds : List Str)
        (tail : List Word), st.path = ds.map Word.ptr ++ Word.null :: tail →
      (∀ d ∈ ds, d.length + c.length + 2 ≤ os.usable (d.length + 1)) →
      (∀ d ∈ ds, os.access (d ++ '/' :: c) = false) →
      runProgram os st (c :: rest)
        = ⟨.returned, st, ds.map (fun d => Event.access (d ++ '/' :: c))
            ++ [.stderr error_message]⟩) := by
  refine ⟨by decide, by decide, by decide, by decide, ?_, ?_, ?_, ?_⟩
  · intro os st c rest d post h
    exact runProgramFrom_overflow os st c rest d post h
  · intro os st args
    exact runProgramFrom_spawned os st args st.path
  · intro os st c rest pre d post hpath hfit hpre hfitd hd
    have h := runProgramFrom_resolved os st c rest pre d post hfit hpre hfitd hd
    rw [← hpath] at h
    exact h
  · intro os st c rest ds tail hpath hfit h
    have h2 := runProgramFrom_unresolved os st c rest ds tail hfit h
    rw [← hpath] at h2
    exact h2

/-! ## The redirection splitter -/

theorem redirectLoop_all (pieces redTokens : List Str) (h : ∀ p ∈ pieces, p ≠ []) :
    redirectLoop pieces redTokens = some (redTokens ++ pieces) := by
  induction pieces generalizing redTokens with
  | nil => simp [redirectLoop]
  | cons p ps ih =>
    have hp : p ≠ [] := h p (by simp)
    simp [redirectLoop, hp, ih (redTokens ++ [p]) (fun q hq => h q (by simp [hq]))]

theorem redirectLoop_some (pieces redTokens out : List Str)
    (h : redirectLoop pieces redTokens = some out) :
    out = redTokens ++ pieces ∧ ∀ p ∈ pieces, p ≠ [] := by
  induction pieces generalizing redTokens with
  | nil => simp [redirectLoop] at h; simp [h]
  | cons p ps ih =>
    by_cases hp : p = []
    · simp [redirectLoop, hp] at h
    · simp only [redirectLoop, hp, if_false] at h
      obtain ⟨h1, h2⟩ := ih _ h
      refine ⟨by simp [h1], ?_⟩
      intro q hq
      rcases List.mem_cons.mp hq with rfl | hq
      · exact hp
      · exact h2 q hq

theorem parseRedirect_accepts (os : OS) (st : Shell) (seg command name : Str)
    (h : RedirectShape seg command name) :
    parseRedirect os st seg = parseCommand os st command (some name) := by
  obtain ⟨target, hs, hc, ht, hn⟩ := h
  have hl := redirectLoop_all [command, target] []
    (by intro p hp; simp at hp; rcases hp with rfl | rfl <;> assumption)
  simp only [List.nil_append] at hl
  simp [parseRedirect, hs, hl, cell, hn]

theorem parseRedirect_rejects (os : OS) (st : Shell) (seg : Str)
    (h : ¬ ∃ command name, RedirectShape seg command name) :
    parseRedirect os st seg = report st := by
  unfold parseRedirect
  cases hl : redirectLoop (strsepAll ['>'] seg) [] with
  | none => rfl
  | some redTokens =>
    obtain ⟨h1, h2⟩ := redirectLoop_some _ _ _ hl
    simp only [List.nil_append] at h1
    subst h1
    simp only
    split_ifs with hlen
    · rfl
    · obtain ⟨command, target, hp⟩ := List.length_eq_two.mp (not_not.mp hlen)
      rw [hp] at h2
      simp only [hp, cell, List.get?_cons_succ, List.get?_cons_zero]
      split_ifs with hn
      · rfl
      · obtain ⟨name, hk⟩ := List.length_eq_one.mp (not_not.mp hn)
        exact absurd ⟨command, name, target, hp, h2 _ (by simp), h2 _ (by simp), hk⟩ h

theorem parseCommand_blank (os : OS) (st : Shell) (line : Str) (filename : Option Str)
    (h : tokenize line = []) (hz : os.zero st .tokens 0 = true) :
    parseCommand os st line filename = ⟨.returned, st, []⟩ := by
  simp [parseCommand, h, word_nil, hz]

theorem parseCommand_blank_junk (os : OS) (st : Shell) (line : Str)
    (h : tokenize line = []) (hz : os.zero st .tokens 0 = false) :
    parseCommand os st line none = ⟨.fault, st, [.select []]⟩ ∧
    ∀ name, parseCommand os st line (some name)
      = ⟨.fault, afterFreopen os st name,
          [.freopen name (os.freopen name), .select []]⟩ := by
  constructor
  · simp [parseCommand, h, word_nil, hz, selectCommand, cell]
  · intro name
    simp [parseCommand, h, word_nil, hz, selectCommand, cell]

theorem redirectShape_unique (seg c1 n1 c2 n2 : Str) (h1 : RedirectShape seg c1 n1)
    (h2 : RedirectShape seg c2 n2) : c1 = c2 ∧ n1 = n2 := by
  obtain ⟨t1, hs1, _, _, hn1⟩ := h1
  obtain ⟨t2, hs2, _, _, hn2⟩ := h2
  rw [hs1] at hs2
  simp only [List.cons.injEq, and_true] at hs2
  obtain ⟨rfl, rfl⟩ := hs2
  rw [hn1] at hn2
  simp only [List.cons.injEq, and_true] at hn2
  exact ⟨rfl, hn2⟩

/-- C1 (as the code has it): for every segment passed to `parseRedirect`, the command piece
and the filename are handed to `parseCommand` exactly when splitting the segment on `>`
yields two pieces, both non-empty, of which the second splits on space and tab into one
token; a command is dispatched exactly when, moreover, the command piece holds a token, and
what is dispatched is then the token list of the command piece. In every other case of the
split one error message is written and nothing else happens: nothing is dispatched, no child
is created and no file is opened. -/
theorem parseRedirect_contract (os : OS) (st : Shell) (seg : Str) :
    (∀ command name, RedirectShape seg command name →
      parseRedirect os st seg = parseCommand os st command (some name)) ∧
    ((¬ ∃ command name, RedirectShape seg command name) →
      parseRedirect os st seg = ⟨.returned, st, [.stderr error_message]⟩) ∧
    ((∃ ts ∈ dispatched (parseRedirect os st seg).trace, ts ≠ []) ↔
      ∃ command name, RedirectShape seg command name ∧ tokenize command ≠ []) ∧
    (∀ command name, RedirectShape seg command name → tokenize command ≠ [] →
      dispatched (parseRedirect os st seg).trace = [tokenize command]) := by
  have hdisp : ∀ command name, RedirectShape seg command name → tokenize command ≠ [] →
      dispatched (parseRedirect os st seg).trace = [tokenize command] := by
    intro command name hshape ht
    rw [parseRedirect_accepts os st seg command name hshape, parseCommand_dispatched]
    have hw : word os st (tokenize command) 0 ≠ .null := fun hw =>
      ht ((word_zero_null os st _).mp hw).1
    simp [hw]
  refine ⟨fun command name h => parseRedirect_accepts os st seg command name h,
    fun h => parseRedirect_rejects os st seg h, ?_, hdisp⟩
  by_cases h : ∃ command name, RedirectShape seg command name
  · obtain ⟨command, name, hshape⟩ := h
    constructor
    · rintro ⟨ts, hts, hne⟩
      refine ⟨command, name, hshape, ?_⟩
      rw [parseRedirect_accepts os st seg command name hshape, parseCommand_dispatched] at hts
      split_ifs at hts
      · simp at hts
      · simp only [List.mem_singleton] at hts
        rw [← hts]; exact hne
    · rintro ⟨c2, n2, hshape2, ht⟩
      exact ⟨tokenize c2, by rw [hdisp c2 n2 hshape2 ht]; simp, ht⟩
  · rw [parseRedirect_rejects os st seg h]
    constructor
    · rintro ⟨ts, hts, _⟩
      simp [report, dispatched] at hts
    · rintro ⟨c2, n2, hshape2, _⟩
      exact absurd ⟨c2, n2, hshape2⟩ h

/-- The segments `cmd > a > b`, `cmd >` and `> file` are rejected with one error message;
`ls > file` is handed to `parseCommand` and dispatched. -/
theorem parseRedirect_contract_witness :
    parseRedirect demoOS (initialShell []) "cmd > a > b".toList
      = ⟨.returned, initialShell [], [.stderr error_message]⟩ ∧
    parseRedirect demoOS (initialShell []) "cmd >".toList
      = ⟨.returned, initialShell [], [.stderr error_message]⟩ ∧
    parseRedirect demoOS (initialShell []) "> file".toList
      = ⟨.returned, initialShell [], [.stderr error_message]⟩ ∧
    parseRedirect demoOS (initialShell []) "ls > file".toList
      = parseCommand demoOS (initialShell []) "ls ".toList (some "file".toList) ∧
    dispatched (parseRedirect demoOS (initialShell []) "ls > file".toList).trace
      = [["ls".toList]] :=
  ⟨(parseRedirect_contract demoOS (initialShell []) "cmd > a > b".toList).2.1
      (by rintro ⟨command, name, target, h, _⟩; simp [strsepAll] at h),
    by decide, by decide,
    (parseRedirect_contract demoOS (initialShell []) "ls > file".toList).1 "ls ".toList
      "file".toList ⟨" file".toList, by decide, by decide, by decide, by decide⟩,
    (parseRedirect_contract demoOS (initialShell []) "ls > file".toList).2.2.2 "ls ".toList
      "file".toList ⟨" file".toList, by decide, by decide, by decide, by decide⟩
      (by decide)⟩

/-- C1 as stated fails: the segment ` > file` splits on `>` into two non-empty pieces and
its second piece holds exactly one token, yet no command is dispatched, whatever the
operating system and the state: the command piece holds no token, so that `selectCommand`
is handed nothing but, at most, the empty token list. In a fresh shell the call makes no
call at all. -/
theorem parseRedirect_blank_command_not_dispatched :
    RedirectShape " > file".toList " ".toList "file".toList ∧
    (∀ (os : OS) (st : Shell),
      ∀ ts ∈ dispatched (parseRedirect os st " > file".toList).trace, ts = []) ∧
    parseRedirect demoOS (initialShell []) " > file".toList
      = ⟨.returned, initialShell [], []⟩ := by
  have hshape : RedirectShape " > file".toList " ".toList "file".toList :=
    ⟨" file".toList, by decide, by decide, by decide, by decide⟩
  refine ⟨hshape, ?_, by decide⟩
  intro os st ts hts
  rw [parseRedirect_accepts os st _ _ _ hshape, parseCommand_dispatched] at hts
  have ht : tokenize " ".toList = [] := by decide
  split_ifs at hts
  · simp at hts
  · simp only [List.mem_singleton] at hts
    rw [hts, ht]

/-! ## Blank lines -/

theorem tokenize_blanks (line : Str) (h : ∀ c ∈ line, c ∈ blanks) : tokenize line = [] := by
  induction line with
  | nil => simp [tokenize, strsepAll]
  | cons c cs ih =>
    rw [tokenize_blank c cs (h c (by simp))]
    exact ih (fun x hx => h x (by simp [hx]))

theorem parallelLoop_dispatched (os : OS) (line : Str) (st : Shell) (pieces : List Str) :
    dispatched (parallelLoop os line st pieces).2 = [] := by
  induction pieces generalizing st with
  | nil => rfl
  | cons p ps ih =>
    simp only [parallelLoop]
    split_ifs <;> simp [dispatched, ih]

theorem waitAll_dispatched (n : Nat) : dispatched (waitAll n) = [] := by
  induction n with
  | zero => rfl
  | succ n ih => simp [waitAll, dispatched, ih]

theorem parseParallel_dispatched (os : OS) (st : Shell) (line : Str) :
    dispatched (parseParallel os st line).trace = [] := by
  simp [parseParallel, dispatched_append, parallelLoop_dispatched, waitAll_dispatched]

theorem exitSuccess_trace (r : Run) : (exitSuccess r).trace = r.trace := by
  unfold exitSuccess
  split <;> rfl

theorem blank_line_step (os : OS) (st : Shell) (line : Str)
    (h : ∀ c ∈ line, c = ' ' ∨ c = '\t') :
    interactiveStep os st line = parseCommand os st line none ∧
    batchStep os st line = parseCommand os st line none ∧ tokenize line = [] := by
  have hb : ∀ c ∈ line, c ∈ blanks := fun c hc => by
    rcases h c hc with rfl | rfl <;> simp [blanks]
  have h1 : '&' ∉ line := fun hc => by
    have := h _ hc; simp at this
  have h2 : '>' ∉ line := fun hc => by
    have := h _ hc; simp at this
  exact ⟨by simp [interactiveStep, h1, h2], by simp [batchStep, h1, h2], tokenize_blanks line hb⟩

/-- C8 (evaluation of the code): the test `*tokens == NULL` of `parseCommand`, commented
"Check if line was empty", reads the first word of a token array in which a blank line has
stored nothing. After the line `ls` has run `/bin/ls`, that word is no longer `NULL`: the
empty line, and the line of two spaces and a tab, then pass the test and reach
`selectCommand` with a list of no token, where the comparison of the first token is a fault.
In general a blank line changes nothing and makes no call exactly when the word reads as
`NULL`; otherwise `selectCommand` is called with no token. -/
theorem blank_line_guard_reads_unwritten_word :
    interactiveStep demoOS (initialShell []) "ls".toList
      = ⟨.returned, { initialShell [] with forks := 1 },
          [.select ["ls".toList], .access "/bin/ls".toList,
            .fork (.exec "/bin/ls".toList ["ls".toList] .inherited []) true, .wait]⟩ ∧
    interactiveStep demoOS { initialShell [] with forks := 1 } []
      = ⟨.fault, { initialShell [] with forks := 1 }, [.select []]⟩ ∧
    batchStep demoOS { initialShell [] with forks := 1 } "  \t".toList
      = ⟨.fault, { initialShell [] with forks := 1 }, [.select []]⟩ ∧
    interactiveStep demoOS (initialShell []) [] = ⟨.returned, initialShell [], []⟩ ∧
    (∀ (os : OS) (st : Shell) (line : Str), (∀ c ∈ line, c = ' ' ∨ c = '\t') →
      os.zero st .tokens 0 = true →
      interactiveStep os st line = ⟨.returned, st, []⟩ ∧
      batchStep os st line = ⟨.returned, st, []⟩) ∧
    (∀ (os : OS) (st : Shell) (line : Str), (∀ c ∈ line, c = ' ' ∨ c = '\t') →
      os.zero st .tokens 0 = false →
      interactiveStep os st line = ⟨.fault, st, [.select []]⟩ ∧
      batchStep os st line = ⟨.fault, st, [.select []]⟩) := by
  refine ⟨by decide, by decide, by decide, by decide, ?_, ?_⟩
  · intro os st line h hz
    obtain ⟨h1, h2, ht⟩ := blank_line_step os st line h
    rw [h1, h2, parseCommand_blank os st line none ht hz]
    exact ⟨rfl, rfl⟩
  · intro os st line h hz
    obtain ⟨h1, h2, ht⟩ := blank_line_step os st line h
    rw [h1, h2, (parseCommand_blank_junk os st line ht hz).1]
    exact ⟨rfl, rfl⟩

/-! ## Redirection of standard output -/

theorem runProgramFrom_frame (os : OS) (st : Shell) (args : List Str) (cells : List Word) :
    (runProgramFrom os st args cells).state.out = st.out ∧
    (runProgramFrom os st args cells).state.target = st.target ∧
    (runProgramFrom os st args cells).state.stdoutOpen = st.stdoutOpen ∧
    ∀ child ∈ spawned (runProgramFrom os st args cells).trace,
      ∃ executable, child = .exec executable args st.out st.cwd := by
  induction cells with
  | nil => simp only [runProgramFrom]; split_ifs <;> simp [report, spawned]
  | cons d cells ih =>
    cases d with
    | null => simp [runProgramFrom, report, spawned]
    | junk => simp [runProgramFrom, spawned]
    | ptr dir =>
      cases hc : cell args 0 with
      | none => simp [runProgramFrom, hc, spawned]
      | some command =>
        simp only [runProgramFrom, hc]
        split_ifs
        · simp [spawned]
        · simp [spawned]
        · simp [spawned]
        · exact ⟨ih.1, ih.2.1, ih.2.2.1, by simpa [spawned] using ih.2.2.2⟩

theorem selectCommand_frame (os : OS) (st : Shell) (size : Nat) (tokens : List Str) :
    (selectCommand os st size tokens).state.out = st.out ∧
    (selectCommand os st size tokens).state.target = st.target ∧
    (selectCommand os st size tokens).state.stdoutOpen = st.stdoutOpen ∧
    ∀ child ∈ spawned (selectCommand os st size tokens).trace,
      ∃ executable, child = .exec executable tokens st.out st.cwd := by
  have hrun := runProgramFrom_frame os st tokens st.path
  unfold selectCommand
  cases hc : cell tokens 0 with
  | none => simp [spawned]
  | some name =>
    simp only
    split_ifs
    · simp only [builtInExit, report]; split_ifs <;> simp [spawned]
    · simp only [builtInCd, report]; split_ifs
      · split <;> simp [spawned]
      · simp [spawned]
    · simp [builtInPath, spawned]
    · simpa [runProgram, spawned] using hrun

theorem afterFreopen_closed (os : OS) (st : Shell) (name : Str) (h : st.stdoutOpen = false) :
    (afterFreopen os st name).out = st.out ∧ (afterFreopen os st name).cwd = st.cwd := by
  unfold afterFreopen
  split_ifs <;> simp_all

/-- C6 (evaluation of the code): `fclose(file)` of `parseCommand` closes the stream `stdout`
itself, because `file` is what `freopen` returned for `stdout`. After the line `ls > a`,
entered in a fresh shell, file descriptor 1 is back where it was, but the stream is closed;
the next line `ls > b` opens (and truncates) `b` without moving file descriptor 1, so that
`/bin/ls` runs with the standard output of the shell and not with `b`: the redirection is
not in effect during the dispatch. In general a call that returns leaves file descriptor 1
where it was, leaves the stream closed whenever it got past the test for an empty line, and
a child created when the stream is closed has the standard output of the shell. -/
theorem redirection_closes_stdout_stream :
    interactiveStep demoOS (initialShell []) "ls > a".toList
      = ⟨.returned, { initialShell [] with stdoutOpen := false, forks := 1 },
          [.freopen "a".toList true, .select ["ls".toList], .access "/bin/ls".toList,
            .fork (.exec "/bin/ls".toList ["ls".toList] (.file "a".toList) []) true,
            .wait, .fclose "a".toList]⟩ ∧
    interactiveStep demoOS { initialShell [] with stdoutOpen := false, forks := 1 }
        "ls > b".toList
      = ⟨.returned, { initialShell [] with stdoutOpen := false, forks := 2 },
          [.freopen "b".toList true, .select ["ls".toList], .access "/bin/ls".toList,
            .fork (.exec "/bin/ls".toList ["ls".toList] .inherited []) true,
            .wait, .fclose "b".toList]⟩ ∧
    (∀ (os : OS) (st : Shell) (line name : Str),
      (parseCommand os st line (some name)).outcome = .returned →
      (parseCommand os st line (some name)).state.out = st.out ∧
      (word os st (tokenize line) 0 ≠ .null →
        (parseCommand os st line (some name)).state.stdoutOpen = false ∧
        (parseCommand os st line (some name)).state.target = none)) ∧
    (∀ (os : OS) (st : Shell) (line name : Str), st.stdoutOpen = false →
      ∀ child ∈ spawned (parseCommand os st line (some name)).trace,
        ∃ executable, child = .exec executable (tokenize line) st.out st.cwd) := by
  refine ⟨by decide, by decide, ?_, ?_⟩
  · intro os st line name
    unfold parseCommand
    by_cases hw : word os st (tokenize line) 0 = .null
    · simp [hw]
    · simp only [hw, if_false]
      generalize selectCommand os _ _ _ = r
      cases hro : r.outcome <;> simp only [] <;> (try split_ifs) <;> simp
  · intro os st line name hs
    have hframe := (selectCommand_frame os (afterFreopen os st name) (tokenize line).length
      (tokenize line)).2.2.2
    rw [(afterFreopen_closed os st name hs).1, (afterFreopen_closed os st name hs).2] at hframe
    unfold parseCommand
    by_cases hw : word os st (tokenize line) 0 = .null
    · simp [hw, spawned]
    · simp only [hw, if_false]
      revert hframe
      generalize selectCommand os _ _ _ = r
      intro hframe
      cases hro : r.outcome <;> simp only [] <;> (try split_ifs) <;>
        simpa [spawned, spawned_append] using hframe

/-! ## Parallel commands -/

theorem spawned_eq_attempts (trace : List Event) :
    spawned trace = ((attempts trace).filter (fun a => a.2)).map Prod.fst := by
  induction trace with
  | nil => rfl
  | cons e trace ih =>
    cases e with
    | fork child created => cases created <;> simp [spawned, attempts, ih]
    | _ => simp [spawned, attempts, ih]

theorem waitAll_attempts (n : Nat) : attempts (waitAll n) = [] := by
  induction n with
  | zero => rfl
  | succ n ih => simp [waitAll, attempts, ih]

theorem waitAll_errorCount (n : Nat) : errorCount (waitAll n) = 0 := by
  induction n with
  | zero => rfl
  | succ n ih =>
    simp only [errorCount] at ih
    simp [waitAll, errorCount, ih]

theorem errorCount_append (a b : List Event) :
    errorCount (a ++ b) = errorCount a + errorCount b := by
  simp [errorCount]

theorem parallelLoop_spec (os : OS) (line : Str) (st : Shell) (pieces : List Str) :
    attempts (parallelLoop os line st pieces).2
      = expectedAttempts os line st.forks (pieces.filter (fun token => token ≠ [])) ∧
    (parallelLoop os line st pieces).1
      = { st with forks := st.forks + (pieces.filter (fun token => token ≠ [])).length,
                  children := st.children + (spawned (parallelLoop os line st pieces).2).length } ∧
    errorCount (parallelLoop os line st pieces).2
      = ((attempts (parallelLoop os line st pieces).2).filter (fun a => !a.2)).length ∧
    Event.wait ∉ (parallelLoop os line st pieces).2 := by
  induction pieces generalizing st with
  | nil => simp [parallelLoop, attempts, expectedAttempts, spawned, errorCount]
  | cons p ps ih =>
    by_cases hp : p = []
    · simpa [parallelLoop, hp] using ih st
    · cases hf : os.fork st.forks with
      | true =>
        obtain ⟨h1, h2, h3, h4⟩ := ih { st with forks := st.forks + 1,
                                                 children := st.children + 1 }
        simp only [parallelLoop, hp, hf, if_false, if_true]
        refine ⟨?_, ?_, ?_, ?_⟩
        · simp [attempts, h1, hp, expectedAttempts, childFor, hf]
        · rw [h2]; simp [spawned, hp]; omega
        · simpa [attempts, errorCount] using h3
        · simpa using h4
      | false =>
        obtain ⟨h1, h2, h3, h4⟩ := ih { st with forks := st.forks + 1 }
        simp only [parallelLoop, hp, hf, if_false, Bool.false_eq_true]
        refine ⟨?_, ?_, ?_, ?_⟩
        · simp [attempts, h1, hp, expectedAttempts, childFor, hf]
        · rw [h2]; simp [spawned, hp]; omega
        · simp only [errorCount] at h3
          simp [attempts, errorCount, h3]
        · simpa using h4

theorem expectedAttempts_all_created (os : OS) (line : Str) (n : Nat) (segs : List Str)
    (h : ∀ k, os.fork k = true) :
    expectedAttempts os line n segs = segs.map (fun seg => (childFor line seg, true)) := by
  induction segs generalizing n with
  | nil => rfl
  | cons seg segs ih => simp [expectedAttempts, h, ih]

/-- C4: on every line, `parseParallel` makes one `fork` call for each non-empty segment of
the split on `&`, in order from the left, and none for an empty segment; each call that
fails writes one error message and the later segments are still attempted; when every call
succeeds the children created are those of the `k` non-empty segments; all the `fork` calls
come before the first `wait`, one `wait` succeeds for every child outstanding, and
`parseParallel` returns in the parent with no child outstanding. -/
theorem parseParallel_forks_each_segment (os : OS) (st : Shell) (line : Str) :
    (parseParallel os st line).outcome = .returned ∧
    attempts (parseParallel os st line).trace
      = expectedAttempts os line st.forks (segments line) ∧
    (attempts (parseParallel os st line).trace).length = (segments line).length ∧
    ((∀ n, os.fork n = true) →
      spawned (parseParallel os st line).trace = (segments line).map (childFor line) ∧
      (spawned (parseParallel os st line).trace).length = (segments line).length) ∧
    errorCount (parseParallel os st line).trace
      = ((attempts (parseParallel os st line).trace).filter (fun a => !a.2)).length ∧
    (∃ forks, (parseParallel os st line).trace
        = forks ++ waitAll (st.children + (spawned forks).length) ∧ Event.wait ∉ forks) ∧
    (parseParallel os st line).state
      = { st with forks := st.forks + (segments line).length, children := 0 } := by
  obtain ⟨h1, h2, h3, h4⟩ := parallelLoop_spec os line st (strsepAll ['&'] line)
  have hatt : attempts (parseParallel os st line).trace
      = expectedAttempts os line st.forks (segments line) := by
    simp [parseParallel, attempts_append, waitAll_attempts, h1, segments]
  refine ⟨rfl, hatt, ?_, ?_, ?_, ?_, ?_⟩
  · rw [hatt]
    generalize segments line = segs
    generalize st.forks = n
    induction segs generalizing n with
    | nil => rfl
    | cons seg segs ih => simp [expectedAttempts, ih]
  · intro hall
    have hs : spawned (parseParallel os st line).trace
        = (segments line).map (childFor line) := by
      rw [spawned_eq_attempts, hatt, expectedAttempts_all_created os line _ _ hall]
      simp [List.filter_map, Function.comp_def]
    exact ⟨hs, by rw [hs, List.length_map]⟩
  · simp only [parseParallel, attempts_append, waitAll_attempts, errorCount_append,
      waitAll_errorCount, List.append_nil, Nat.add_zero]
    exact h3
  · refine ⟨(parallelLoop os line st (strsepAll ['&'] line)).2, ?_, h4⟩
    simp only [parseParallel]
    rw [h2]
  · simp only [parseParallel]
    rw [h2]
    simp [segments]

/-- The line `ls & echo hi & ` has three non-empty segments (the last is a space) and an
empty one is never forked for: three children are created, then three waits succeed. -/
theorem parseParallel_forks_each_segment_witness :
    segments "ls & echo hi & ".toList = ["ls ".toList, " echo hi ".toList, " ".toList] ∧
    segments "ls&&pwd&".toList = ["ls".toList, "pwd".toList] ∧
    (parseParallel demoOS (initialShell []) "ls & echo hi & ".toList).trace
      = [.fork (.command "ls ".toList) true, .fork (.command " echo hi ".toList) true,
          .fork (.command " ".toList) true, .wait, .wait, .wait] ∧
    (spawned (parseParallel demoOS (initialShell []) "ls&&pwd&".toList).trace).length
      = (segments "ls&&pwd&".toList).length :=
  ⟨by decide, by decide, by decide,
    ((parseParallel_forks_each_segment demoOS (initialShell []) "ls&&pwd&".toList).2.2.2.1
      (fun _ => rfl)).2⟩

theorem parseParallel_attempts (os : OS) (st : Shell) (line : Str) :
    attempts (parseParallel os st line).trace
      = expectedAttempts os line st.forks (segments line) := by
  simp [parseParallel, attempts_append, waitAll_attempts,
    (parallelLoop_spec os line st (strsepAll ['&'] line)).1, segments]

theorem expectedAttempts_mem (os : OS) (line : Str) (n : Nat) (segs : List Str)
    (a : Child × Bool) (h : a ∈ expectedAttempts os line n segs) :
    ∃ seg ∈ segs, a.1 = childFor line seg := by
  induction segs generalizing n with
  | nil => simp [expectedAttempts] at h
  | cons seg segs ih =>
    simp only [expectedAttempts, List.mem_cons] at h
    rcases h with rfl | h
    · exact ⟨seg, by simp, rfl⟩
    · obtain ⟨s, hs, ha⟩ := ih _ h
      exact ⟨s, by simp [hs], ha⟩

/-- C5 (evaluation of the code): on the line `ls & echo hi > out` the child of the segment
`ls `, which holds no `>`, is made to run `parseRedirect`, because the test for `>` reads
the whole line: it writes one error message and dispatches nothing, whereas handled by
`parseCommand` the segment would run `/bin/ls`. On every line that holds a `>`, every
segment is given to `parseRedirect`. -/
theorem parseParallel_child_tests_whole_line :
    '>' ∉ "ls ".toList ∧
    spawned (parseParallel demoOS (initialShell []) "ls & echo hi > out".toList).trace
      = [.redirect "ls ".toList, .redirect " echo hi > out".toList] ∧
    runChild demoOS (initialShell []) (.redirect "ls ".toList)
      = some ⟨.exited 0, initialShell [], [.stderr error_message]⟩ ∧
    runChild demoOS (initialShell []) (.command "ls ".toList)
      = some ⟨.exited 0, { initialShell [] with forks := 1 },
          [.select ["ls".toList], .access "/bin/ls".toList,
            .fork (.exec "/bin/ls".toList ["ls".toList] .inherited []) true, .wait]⟩ ∧
    (∀ (os : OS) (st : Shell) (line : Str), '>' ∈ line →
      ∀ a ∈ attempts (parseParallel os st line).trace, ∃ token, a.1 = .redirect token) := by
  refine ⟨by decide, by decide, by decide, by decide, ?_⟩
  intro os st line hgt a ha
  rw [parseParallel_attempts] at ha
  obtain ⟨seg, _, hseg⟩ := expectedAttempts_mem os line _ _ a ha
  exact ⟨seg, by rw [hseg]; simp [childFor, hgt]⟩

/-! ## Batch mode and process exit codes -/

theorem batch_after_last_line (os : OS) (st : Shell) (lines : List Str)
    (h : (batchLoop os st lines).outcome = .returned) :
    batch os st (some lines)
      = ⟨.exited 0, (batchLoop os st lines).state, (batchLoop os st lines).trace⟩ := by
  simp [batch, h, builtInExit]

/-- C11 (as the code has it): in batch mode with a readable file none of whose lines ends
the process, the shell ends after the last line with exit code 0, through `builtInExit(1)`,
and writes no error message of its own for it; exit code 1 is the one of an unreadable batch
file and of two or more command-line arguments, each with one error message. -/
theorem batch_ends_with_status_zero (os : OS) (st : Shell) (lines : List Str) :
    ((batchLoop os st lines).outcome = .returned →
      batch os st (some lines)
        = ⟨.exited 0, (batchLoop os st lines).state, (batchLoop os st lines).trace⟩) ∧
    (∀ cwd input, (batchLoop os (initialShell cwd) lines).outcome = .returned →
      main os cwd 2 (some lines) input
        = ⟨.exited 0, (batchLoop os (initialShell cwd) lines).state,
            (batchLoop os (initialShell cwd) lines).trace⟩) ∧
    batch os st none = ⟨.exited 1, st, [.stderr error_message]⟩ ∧
    (∀ cwd input, main os cwd 2 none input
      = ⟨.exited 1, initialShell cwd, [.stderr error_message]⟩) ∧
    (∀ cwd argc file input, 3 ≤ argc →
      main os cwd argc file input
        = ⟨.exited 1, initialShell cwd, [.stderr error_message]⟩) := by
  refine ⟨batch_after_last_line os st lines, ?_, rfl, ?_, ?_⟩
  · intro cwd input h
    simp [main, batch_after_last_line os (initialShell cwd) lines h]
  · intro cwd input
    simp [main, batch]
  · intro cwd argc file input h
    have h1 : argc ≠ 1 := by omega
    have h2 : argc ≠ 2 := by omega
    simp [main, h1, h2]

/-- The batch file of the two lines `cd /tmp` and `ls` ends the shell with exit code 0 after
`ls` has run in `/tmp`; three command-line arguments end it with exit code 1. -/
theorem batch_ends_with_status_zero_witness :
    main demoOS [] 2 (some ["cd /tmp".toList, "ls".toList]) []
      = ⟨.exited 0, { initialShell "/tmp".toList with forks := 1 },
          [.select ["cd".toList, "/tmp".toList], .select ["ls".toList],
            .access "/bin/ls".toList,
            .fork (.exec "/bin/ls".toList ["ls".toList] .inherited "/tmp".toList) true,
            .wait]⟩ ∧
    main demoOS [] 3 none [] = ⟨.exited 1, initialShell [], [.stderr error_message]⟩ :=
  ⟨(batch_ends_with_status_zero demoOS (initialShell [])
      ["cd /tmp".toList, "ls".toList]).2.1 [] [] (by decide),
    (batch_ends_with_status_zero demoOS (initialShell []) []).2.2.2.2 [] 3 none []
      (by decide)⟩

/-- C11 as stated fails: the readable batch file whose only line is `ls` is processed without
any line ending the shell, and the process then ends with exit code 0, not 1. -/
theorem batch_exit_code_is_not_one :
    (batchLoop demoOS (initialShell []) ["ls".toList]).outcome = .returned ∧
    (main demoOS [] 2 (some ["ls".toList]) []).outcome = .exited 0 ∧
    (main demoOS [] 2 (some ["ls".toList]) []).outcome ≠ .exited 1 := by
  decide

/-! ## The error message -/

theorem stderrText_append (a b : List Event) :
    stderrText (a ++ b) = stderrText a ++ stderrText b := by
  induction a with
  | nil => rfl
  | cons e a ih => cases e <;> simp [stderrText, ih]

theorem stderrText_uniform (trace : List Event)
    (h : ∀ text, Event.stderr text ∈ trace → text = error_message) :
    stderrText trace = (List.replicate (errorCount trace) error_message).flatten := by
  induction trace with
  | nil => rfl
  | cons e trace ih =>
    have ih2 := ih (fun text ht => h text (List.mem_cons_of_mem _ ht))
    simp only [errorCount] at ih2
    cases e with
    | stderr text =>
      have ht : text = error_message := h text (List.mem_cons_self _ _)
      subst ht
      simp [stderrText, errorCount, ih2, List.replicate_succ]
    | _ => simp [stderrText, errorCount, ih2]

theorem runProgramFrom_stderr (os : OS) (st : Shell) (args : List Str)
    (cells : List Word) :
    ∀ text, Event.stderr text ∈ (runProgramFrom os st args cells).trace →
      text = error_message := by
  induction cells with
  | nil => simp only [runProgramFrom]; split_ifs <;> simp [report]
  | cons d cells ih =>
    cases d with
    | null => simp [runProgramFrom, report]
    | junk => simp [runProgramFrom]
    | ptr dir =>
      cases hc : cell args 0 with
      | none => simp [runProgramFrom, hc]
      | some command =>
        simp only [runProgramFrom, hc]
        split_ifs
        · simp
        · simp
        · simp
        · simpa using ih

theorem selectCommand_stderr (os : OS) (st : Shell) (size : Nat) (tokens : List Str) :
    ∀ text, Event.stderr text ∈ (selectCommand os st size tokens).trace →
      text = error_message := by
  have hrun := runProgramFrom_stderr os st tokens st.path
  unfold selectCommand
  cases hc : cell tokens 0 with
  | none => simp
  | some name =>
    simp only
    split_ifs
    · simp only [builtInExit, report]; split_ifs <;> simp
    · simp only [builtInCd, report]; split_ifs
      · split <;> simp
      · simp
    · simp [builtInPath]
    · simpa [runProgram] using hrun

theorem parseCommand_stderr (os : OS) (st : Shell) (line : Str) (filename : Option Str) :
    ∀ text, Event.stderr text ∈ (parseCommand os st line filename).trace →
      text = error_message := by
  unfold parseCommand
  by_cases hw : word os st (tokenize line) 0 = .null
  · simp [hw]
  · simp only [hw, if_false]
    cases filename with
    | none => exact selectCommand_stderr os st _ _
    | some name =>
      simp only []
      have h := selectCommand_stderr os (afterFreopen os st name) (tokenize line).length
        (tokenize line)
      revert h
      generalize selectCommand os _ _ _ = r
      intro h
      cases hro : r.outcome <;> simp only [] <;> (try split_ifs) <;> simpa using h

theorem parseRedirect_stderr (os : OS) (st : Shell) (line : Str) :
    ∀ text, Event.stderr text ∈ (parseRedirect os st line).trace → text = error_message := by
  by_cases h : ∃ command name, RedirectShape line command name
  · obtain ⟨command, name, hshape⟩ := h
    rw [parseRedirect_accepts os st line command name hshape]
    exact parseCommand_stderr os st command (some name)
  · rw [parseRedirect_rejects os st line h]
    simp [report]

theorem parallelLoop_stderr (os : OS) (line : Str) (st : Shell) (pieces : List Str) :
    ∀ text, Event.stderr text ∈ (parallelLoop os line st pieces).2 →
      text = error_message := by
  induction pieces generalizing st with
  | nil => simp [parallelLoop]
  | cons p ps ih =>
    by_cases hp : p = []
    · simpa [parallelLoop, hp] using ih st
    · cases hf : os.fork st.forks with
      | true =>
        simp only [parallelLoop, hp, hf, if_false, if_true]
        intro text ht
        simp only [List.mem_cons, reduceCtorEq, false_or] at ht
        exact ih _ text ht
      | false =>
        simp only [parallelLoop, hp, hf, if_false, Bool.false_eq_true]
        intro text ht
        simp only [List.mem_cons, reduceCtorEq, Event.stderr.injEq, false_or] at ht
        rcases ht with rfl | ht
        · rfl
        · exact ih _ text ht

theorem waitAll_stderr (n : Nat) : ∀ text, Event.stderr text ∉ waitAll n := by
  induction n with
  | zero => simp [waitAll]
  | succ n ih => simpa [waitAll] using ih

theorem parseParallel_stderr (os : OS) (st : Shell) (line : Str) :
    ∀ text, Event.stderr text ∈ (parseParallel os st line).trace → text = error_message := by
  intro text ht
  simp only [parseParallel, List.mem_append] at ht
  rcases ht with ht | ht
  · exact parallelLoop_stderr os line st _ text ht
  · exact absurd ht (waitAll_stderr _ text)

theorem interactiveStep_stderr (os : OS) (st : Shell) (line : Str) :
    ∀ text, Event.stderr text ∈ (interactiveStep os st line).trace →
      text = error_message := by
  unfold interactiveStep
  split_ifs
  · exact parseParallel_stderr os st line
  · exact parseRedirect_stderr os st line
  · exact parseCommand_stderr os st line none

theorem runChild_stderr (os : OS) (st : Shell) (child : Child) (r : Run)
    (hr : runChild os st child = some r) :
    ∀ text, Event.stderr text ∈ r.trace → text = error_message := by
  cases child with
  | exec e a o c =>
    simp only [runChild] at hr
    split_ifs at hr
    simp only [Option.some.injEq] at hr
    rw [← hr]
    simp
  | redirect token =>
    simp only [runChild, Option.some.injEq] at hr
    rw [← hr, exitSuccess_trace]
    exact parseRedirect_stderr os _ token
  | command token =>
    simp only [runChild, Option.some.injEq] at hr
    rw [← hr, exitSuccess_trace]
    exact parseCommand_stderr os _ token none

theorem batchStep_eq_interactiveStep (os : OS) (st : Shell) (line : Str) :
    batchStep os st line = interactiveStep os st line := rfl

/-- C12: whatever the line and the state, all that the shell writes to standard error while
it processes the line, in either mode, and all that a child of `parseParallel` writes while
it processes its segment, is the message `An error has occurred` followed by a newline,
repeated as many times as an error was reported (possibly none); every single write is that
message. -/
theorem stderr_is_copies_of_error_message (os : OS) (st : Shell) (line : Str) :
    error_message = "An error has occurred\n".toList ∧
    (∀ text, Event.stderr text ∈ (interactiveStep os st line).trace →
      text = error_message) ∧
    stderrText (interactiveStep os st line).trace
      = (List.replicate (errorCount (interactiveStep os st line).trace)
          error_message).flatten ∧
    stderrText (batchStep os st line).trace
      = (List.replicate (errorCount (batchStep os st line).trace) error_message).flatten ∧
    (∀ child r, runChild os st child = some r →
      stderrText r.trace = (List.replicate (errorCount r.trace) error_message).flatten) := by
  refine ⟨rfl, interactiveStep_stderr os st line,
    stderrText_uniform _ (interactiveStep_stderr os st line), ?_, ?_⟩
  · rw [batchStep_eq_interactiveStep]
    exact stderrText_uniform _ (interactiveStep_stderr os st line)
  · intro child r hr
    exact stderrText_uniform _ (runChild_stderr os st child r hr)

/-- The line `cd & exit now & ls`, when no `fork` succeeds, writes the message three times
and nothing else; the child of the segment `cd ` writes it once. -/
theorem stderr_is_copies_of_error_message_witness :
    stderrText (interactiveStep { demoOS with fork := fun _ => false } (initialShell [])
        "cd & exit now & ls".toList).trace
      = "An error has occurred\nAn error has occurred\nAn error has occurred\n".toList ∧
    stderrText (interactiveStep demoOS (initialShell []) "foo > a > b".toList).trace
      = "An error has occurred\n".toList ∧
    (∀ r, runChild demoOS (initialShell []) (.command "cd ".toList) = some r →
      stderrText r.trace = (List.replicate (errorCount r.trace) error_message).flatten) :=
  ⟨by decide, by decide,
    (stderr_is_copies_of_error_message demoOS (initialShell []) []).2.2.2.2
      (.command "cd ".toList)⟩

/-! ## Classification of a line -/

/-- C13: a line that holds an `&` is handled by `parseParallel`, whether or not it also
holds a `>`; a line that holds a `>` and no `&` is handled by `parseRedirect`; every other
line is handled by `parseCommand` with no redirection target; and the loop of `batch`
handles every line as the loop of `interactive` does. -/
theorem line_classification (os : OS) (st : Shell) (line : Str) :
    ('&' ∈ line → interactiveStep os st line = parseParallel os st line) ∧
    ('&' ∉ line → '>' ∈ line → interactiveStep os st line = parseRedirect os st line) ∧
    ('&' ∉ line → '>' ∉ line → interactiveStep os st line = parseCommand os st line none) ∧
    batchStep os st line = interactiveStep os st line ∧
    (∀ lines, batchLoop os st lines = interactive os st lines) := by
  refine ⟨?_, ?_, ?_, rfl, ?_⟩
  · intro h
    simp [interactiveStep, h]
  · intro h1 h2
    simp [interactiveStep, h1, h2]
  · intro h1 h2
    simp [interactiveStep, h1, h2]
  · intro lines
    induction lines generalizing st with
    | nil => rfl
    | cons l ls ih =>
      simp only [batchLoop, interactive, batchStep_eq_interactiveStep, ih]

/-- The line `ls > out & pwd` holds both operators and goes to `parseParallel`; `ls > out`
goes to `parseRedirect`; `ls -l` goes to `parseCommand`. -/
theorem line_classification_witness :
    interactiveStep demoOS (initialShell []) "ls > out & pwd".toList
      = parseParallel demoOS (initialShell []) "ls > out & pwd".toList ∧
    batchStep demoOS (initialShell []) "ls > out".toList
      = parseRedirect demoOS (initialShell []) "ls > out".toList ∧
    interactiveStep demoOS (initialShell []) "ls -l".toList
      = parseCommand demoOS (initialShell []) "ls -l".toList none ∧
    (interactiveStep demoOS (initialShell []) "ls > out & pwd".toList).trace
      = [.fork (.redirect "ls > out ".toList) true, .fork (.redirect " pwd".toList) true,
          .wait, .wait] :=
  ⟨(line_classification demoOS (initialShell []) "ls > out & pwd".toList).1 (by decide),
    ((line_classification demoOS (initialShell []) "ls > out".toList).2.2.2.1).trans
      ((line_classification demoOS (initialShell []) "ls > out".toList).2.1
        (by decide) (by decide)),
    (line_classification demoOS (initialShell []) "ls -l".toList).2.2.1
      (by decide) (by decide),
    by decide⟩

/-! ## The shell is untouched by a parallel line -/

/-- C14: whatever the line and the state, `parseParallel` returns in the parent with the
search path, the working directory and the destination of standard output it was called
with (only the count of `fork` calls has grown, and no child is outstanding); the parent
hands nothing to `selectCommand`, so that a built-in named in a segment runs only in the
child of that segment. -/
theorem parseParallel_leaves_shell_unchanged (os : OS) (st : Shell) (line : Str) :
    (parseParallel os st line).outcome = .returned ∧
    (parseParallel os st line).state.path = st.path ∧
    searchPath (parseParallel os st line).state = searchPath st ∧
    (parseParallel os st line).state.cwd = st.cwd ∧
    (parseParallel os st line).state.out = st.out ∧
    (parseParallel os st line).state.target = st.target ∧
    dispatched (parseParallel os st line).trace = [] ∧
    ('&' ∈ line →
      (interactiveStep os st line).outcome = .returned ∧
      (interactiveStep os st line).state
        = { st with forks := st.forks + (segments line).length, children := 0 }) := by
  have h2 := (parallelLoop_spec os line st (strsepAll ['&'] line)).2.1
  have hstate : (parseParallel os st line).state
      = { st with forks := st.forks + (segments line).length, children := 0 } := by
    simp only [parseParallel]
    rw [h2]
    simp [segments]
  refine ⟨rfl, ?_, ?_, ?_, ?_, ?_, parseParallel_dispatched os st line, ?_⟩
  · rw [hstate]
  · rw [hstate]; rfl
  · rw [hstate]
  · rw [hstate]
  · rw [hstate]
  · intro h
    simp only [interactiveStep, h, if_true]
    exact ⟨rfl, hstate⟩

/-- The line `cd /tmp & path /x & exit` leaves the shell running in its directory with its
search path; the three built-ins run in the three children, each of which ends with status 0
on its own copy of the state. -/
theorem parseParallel_leaves_shell_unchanged_witness :
    interactiveStep demoOS (initialShell "/home".toList) "cd /tmp & path /x & exit".toList
      = ⟨.returned, { initialShell "/home".toList with forks := 3 },
          [.fork (.command "cd /tmp ".toList) true, .fork (.command " path /x ".toList) true,
            .fork (.command " exit".toList) true, .wait, .wait, .wait]⟩ ∧
    runChild demoOS (initialShell "/home".toList) (.command "cd /tmp ".toList)
      = some ⟨.exited 0, initialShell "/tmp".toList,
          [.select ["cd".toList, "/tmp".toList]]⟩ ∧
    runChild demoOS (initialShell "/home".toList) (.command " exit".toList)
      = some ⟨.exited 0, initialShell "/home".toList, [.select ["exit".toList]]⟩ ∧
    (interactiveStep demoOS (initialShell "/home".toList)
        "cd /tmp & path /x & exit".toList).outcome = .returned :=
  ⟨by decide, by decide, by decide,
    ((parseParallel_leaves_shell_unchanged demoOS (initialShell "/home".toList)
      "cd /tmp & path /x & exit".toList).2.2.2.2.2.2.2 (by decide)).1⟩

/-! ## A redirection with a blank command -/

theorem tokenize_token (t : Str) (hne : t ≠ []) (ht : ∀ c ∈ t, c ∉ blanks) :
    tokenize t = [t] := by
  have := tokenize_run t [] hne ht (by simp)
  simpa [tokenize, strsepAll] using this

theorem tokenize_intercalate (ts : List Str) (h : ∀ t ∈ ts, t ≠ [] ∧ ∀ c ∈ t, c ∉ blanks) :
    tokenize (List.intercalate [' '] ts) = ts := by
  induction ts with
  | nil => simp [List.intercalate, tokenize, strsepAll]
  | cons t ts ih =>
    obtain ⟨hne, hnb⟩ := h t (by simp)
    cases ts with
    | nil =>
      simpa [List.intercalate] using tokenize_token t hne hnb
    | cons u us =>
      have ih2 := ih (fun x hx => h x (by simp [hx]))
      have hcons : List.intercalate [' '] (t :: u :: us)
          = t ++ ' ' :: List.intercalate [' '] (u :: us) := by
        simp [List.intercalate]
      rw [hcons, tokenize_run t _ hne hnb (by simp [blanks]),
        tokenize_blank ' ' _ (by simp [blanks]), ih2]

theorem tokenize_tokens (s : Str) : ∀ t ∈ tokenize s, t ≠ [] ∧ ∀ c ∈ t, c ∉ blanks := by
  intro t ht
  have hmem := List.mem_filter.mp ht
  exact ⟨by simpa using hmem.2, strsepAll_no_delim blanks s t hmem.1⟩

/-- C16: tokenizing is stable: for every segment, the tokens joined with single spaces
tokenize to the same tokens again, and every single token tokenizes to itself alone. -/
theorem tokenize_stable (s : Str) :
    tokenize (List.intercalate [' '] (tokenize s)) = tokenize s ∧
    (∀ t ∈ tokenize s, tokenize t = [t]) :=
  ⟨tokenize_intercalate (tokenize s) (tokenize_tokens s),
    fun t ht => tokenize_token t (tokenize_tokens s t ht).1 (tokenize_tokens s t ht).2⟩

/-- The segment of `ls`, `-l` and `/tmp` separated by runs of tabs and spaces: its tokens
joined by single spaces are `ls -l /tmp`, which tokenizes to the same three tokens. -/
theorem tokenize_stable_witness :
    tokenize "  ls \t-l   /tmp ".toList = ["ls".toList, "-l".toList, "/tmp".toList] ∧
    List.intercalate [' '] (tokenize "  ls \t-l   /tmp ".toList) = "ls -l /tmp".toList ∧
    tokenize (List.intercalate [' '] (tokenize "  ls \t-l   /tmp ".toList))
      = tokenize "  ls \t-l   /tmp ".toList ∧
    tokenize "-l".toList = ["-l".toList] :=
  ⟨by decide, by decide, (tokenize_stable "  ls \t-l   /tmp ".toList).1,
    (tokenize_stable "  ls \t-l   /tmp ".toList).2 "-l".toList (by decide)⟩

end Lsh
